import Mathlib

/-!
# Verification of the pegen parser runtime (src/pegen/pegen.c)

A shallow embedding of the memoizing parser engine, the string-literal
decoder and the f-string sub-parser of `pegen.c`, together with theorems
settling the specified properties.

Conventions used throughout:

* C byte strings are modelled as `List Char`, each `Char` standing for one
  byte of the buffer (`Py_CHARMASK` comparisons use `Char.toNat`).
* C functions that signal failure through a `NULL` return or a `-1` status
  are modelled with `Option` / `Except PErr`.
* Arena / heap allocation never fails in the model; the corresponding
  `NULL` checks in the source are memory-exhaustion paths.
-/

namespace Pegen

/-! ## Memoization engine (insert_memo / update_memo / is_memoized) -/

/-- A node of a token's memo chain (`struct Memo`): rule id `type`, the
stored result `node` (`none` models a memoized `NULL`, i.e. a failed
match) and `mark`, the cursor position the parser had reached when the
entry was created (`m->mark = p->mark` in `insert_memo`). -/
structure Memo where
  type : Nat
  node : Option Nat
  mark : Nat
deriving DecidableEq, Repr

/-- A materialized token: its (possibly keyword-rewritten) kind and the
head of its memo chain.  The byte span and source positions carried by
the C `Token` are irrelevant to the memoization claims and omitted. -/
structure Token where
  type : Nat
  memo : List Memo
deriving DecidableEq, Repr

/-- The parser state restricted to the fields the engine claims are
about.  `tokens` is the materialized part of the token buffer, so
`p->fill = tokens.length`; `source` holds the tokens the lexer
collaborator will still deliver (an empty `source` models the lexer
failing, which is how `fill_token` reports `-1`).  Buffer growth,
keyword rewriting and position bookkeeping are collaborator/memory
details not modelled here. -/
structure Parser where
  tokens : List Token
  mark : Nat
  source : List Token
deriving DecidableEq, Repr

/-- Replace the element at index `n` (no-op when out of range). -/
def listModify (f : Token → Token) : Nat → List Token → List Token
  | _, [] => []
  | 0, t :: ts => f t :: ts
  | n+1, t :: ts => t :: listModify f n ts

/-- Models `fill_token`: obtain one more token from the lexer and append
it to the buffer; `none` models the `-1` error return (lexer error). -/
def fill_token (p : Parser) : Option Parser :=
  match p.source with
  | [] => none
  | t :: rest => some { p with tokens := p.tokens ++ [t], source := rest }

/-- Models `insert_memo p mark type node`: prepend a fresh entry holding
`node` and the current cursor `p.mark` to the memo chain of token
`mark`.  The arena-allocation failure path always succeeds here. -/
def insert_memo (p : Parser) (mark type : Nat) (node : Option Nat) : Parser :=
  { p with tokens :=
      listModify (fun t => { t with memo := ⟨type, node, p.mark⟩ :: t.memo }) mark p.tokens }

/-- The in-place update performed by `update_memo`'s scan loop: rewrite
the first chain entry whose rule id matches; `none` when no entry
matches. -/
def updateChain (type : Nat) (node : Option Nat) (endMark : Nat) :
    List Memo → Option (List Memo)
  | [] => none
  | m :: ms =>
    if m.type = type then
      some ({ m with node := node, mark := endMark } :: ms)
    else
      (updateChain type node endMark ms).map (fun ms2 => m :: ms2)

/-- Models `update_memo`: mutate the first entry of matching rule id in
place, inserting a fresh entry (via `insert_memo`) when none exists. -/
def update_memo (p : Parser) (mark type : Nat) (node : Option Nat) : Parser :=
  match p.tokens[mark]? with
  | none => insert_memo p mark type node
  | some t =>
    match updateChain type node p.mark t.memo with
    | some chain => { p with tokens := listModify (fun t2 => { t2 with memo := chain }) mark p.tokens }
    | none => insert_memo p mark type node

/-- First entry of the chain carrying the given rule id — the entry the
scan loops of `is_memoized` and `update_memo` stop at. -/
def memoLookup (type : Nat) : List Memo → Option Memo
  | [] => none
  | m :: ms => if m.type = type then some m else memoLookup type ms

/-- Models `is_memoized`: at the current `mark`, materialize a token if
needed, then scan that token's memo chain for `type`.  `none` is the
`-1` error return; `some (none, p')` is a miss (`0`); `some (some node,
p')` is a hit (`1`), where `p'.mark` has been set to the stored end
position and `node` is what the C code writes through `pres`. -/
def is_memoized (p : Parser) (type : Nat) : Option (Option (Option Nat) × Parser) :=
  match (if p.mark = p.tokens.length then fill_token p else some p) with
  | none => none
  | some p1 =>
    match p1.tokens[p1.mark]? with
    | none => some (none, p1)
    | some t =>
      match memoLookup type t.memo with
      | some m => some (some m.node, { p1 with mark := m.mark })
      | none => some (none, p1)

/-! ## Lookahead combinators -/

/-- Models `lookahead_with_string`: save `mark`, invoke `func`, restore
`mark`, and return `(res != NULL) == positive`.  A parse function is
modelled as a state transformer returning its (possibly `NULL`) result
together with the mutated parser. -/
def lookahead_with_string (positive : Bool) (func : Parser → String → Option Nat × Parser)
    (p : Parser) (arg : String) : Bool × Parser :=
  let mark := p.mark
  let r := func p arg
  ((r.1.isSome == positive), { r.2 with mark := mark })

/-- Models `lookahead_with_int` (the argument is an `int`, the callee
returns a `Token *`). -/
def lookahead_with_int (positive : Bool) (func : Parser → Int → Option Token × Parser)
    (p : Parser) (arg : Int) : Bool × Parser :=
  let mark := p.mark
  let r := func p arg
  ((r.1.isSome == positive), { r.2 with mark := mark })

/-- Models the argumentless `lookahead`. -/
def lookahead (positive : Bool) (func : Parser → Option Nat × Parser)
    (p : Parser) : Bool × Parser :=
  let mark := p.mark
  let r := func p
  ((r.1.isSome == positive), { r.2 with mark := mark })

/-! ## Sequences of memo-table writes (for the chain invariant) -/

/-- One memo-table operation: a call to `insert_memo` or `update_memo`
at a given token position with a given rule id and node. -/
inductive MemoWrite where
  | ins (pos type : Nat) (node : Option Nat)
  | upd (pos type : Nat) (node : Option Nat)
deriving DecidableEq, Repr

/-- The token position an operation targets. -/
def MemoWrite.pos : MemoWrite → Nat
  | .ins q _ _ => q
  | .upd q _ _ => q

/-- Dispatch one operation to the corresponding source function. -/
def applyWrite (p : Parser) : MemoWrite → Parser
  | .ins pos t n => insert_memo p pos t n
  | .upd pos t n => update_memo p pos t n

/-- Run a sequence of memo-table operations left to right. -/
def runWrites (p : Parser) : List MemoWrite → Parser
  | [] => p
  | w :: ws => runWrites (applyWrite p w) ws

/-- The memo chain of the token at `pos` (empty when out of range). -/
def chainAt (p : Parser) (pos : Nat) : List Memo :=
  match p.tokens[pos]? with
  | some t => t.memo
  | none => []

/-- The entry a single operation writes for `(pos, type)` when the
cursor is at `mark`, if any. -/
def writeAt (pos type mark : Nat) : MemoWrite → Option Memo
  | .ins q t n => if q = pos ∧ t = type then some ⟨type, n, mark⟩ else none
  | .upd q t n => if q = pos ∧ t = type then some ⟨type, n, mark⟩ else none

/-- Left-biased choice on optional memo entries. -/
def orO (a b : Option Memo) : Option Memo :=
  match a with
  | some x => some x
  | none => b

/-- The last entry written for `(pos, type)` by a sequence of
operations, all performed with the cursor at `mark`. -/
def lastWriteAt (pos type mark : Nat) (ws : List MemoWrite) : Option Memo :=
  (ws.filterMap (writeAt pos type mark)).getLast?

/-- The live entries of a memo chain: an entry is live when no entry
closer to the head carries the same rule id (chains are scanned from
the head, so earlier entries shadow later ones). -/
def liveEntries : List Memo → List Memo
  | [] => []
  | m :: ms => m :: (liveEntries ms).filter (fun m2 => decide (m2.type ≠ m.type))

/-! ## AST model

The AST node kinds the verified helpers inspect.  Nodes carry the source
span the C constructors receive (`lineno`, `col_offset`, `end_lineno`,
`end_col_offset`); all kinds not recognized by the helpers are collapsed
into `other`. -/

/-- A source span as passed to the AST constructors. -/
structure Span where
  lineno : Int
  col_offset : Int
  end_lineno : Int
  end_col_offset : Int
deriving DecidableEq, Repr

/-- The expression context discriminator (`Load`, `Store`, `Del`). -/
inductive ExprContext where
  | load
  | store
  | del
deriving DecidableEq, Repr

/-- Expression nodes (collaborator-provided `expr_ty`), restricted to
the kinds the helpers in `pegen.c` discriminate on. -/
inductive Expr where
  | name (id : String) (ctx : ExprContext) (span : Span)
  | constant (value : String) (kind : Option String) (span : Span)
  | tuple (elts : List Expr) (ctx : ExprContext) (span : Span)
  | list (elts : List Expr) (ctx : ExprContext) (span : Span)
  | subscript (value : Expr) (slice : Expr) (ctx : ExprContext) (span : Span)
  | attribute (value : Expr) (attr : String) (ctx : ExprContext) (span : Span)
  | starred (value : Expr) (ctx : ExprContext) (span : Span)
  | joinedStr (values : List Expr) (span : Span)
  | formattedValue (value : Expr) (conversion : Int) (format_spec : Option Expr) (span : Span)
  | other (tag : Nat) (span : Span)
deriving Repr

/-- Statement nodes: only the expression-statement kind is inspected
(`stmt->v.Expr.value` in the intended `fstring_compile_expr`). -/
inductive Stmt where
  | exprStmt (value : Expr) (span : Span)
  | otherStmt (tag : Nat) (span : Span)
deriving Repr

/-- A `Module` node (`mod_ty`): its statement list `body`. -/
structure Mod where
  body : List Stmt
deriving Repr

/-! ## set_expr_context -/

mutual

/-- Models `set_expr_context`: structurally copy an expression with
`ctx` as its new context.  Recognized kinds: name, tuple, list,
subscript, attribute, starred; tuple and list recurse element-wise via
`_set_seq_context`, starred recurses into its value; every other kind is
returned unchanged.  The copies reuse the node's own span
(`EXTRA_EXPR(e, e)` in the source). -/
def set_expr_context : Expr → ExprContext → Expr
  | .name id _ sp, ctx => .name id ctx sp
  | .tuple elts _ sp, ctx => .tuple (set_seq_context elts ctx) ctx sp
  | .list elts _ sp, ctx => .list (set_seq_context elts ctx) ctx sp
  | .subscript v s _ sp, ctx => .subscript v s ctx sp
  | .attribute v a _ sp, ctx => .attribute v a ctx sp
  | .starred v _ sp, ctx => .starred (set_expr_context v ctx) ctx sp
  | e, _ => e

/-- Models `_set_seq_context`: rewrite every element of a sequence
(the source's `NULL`-sequence short-circuit and arena allocation are
memory-management details). -/
def set_seq_context : List Expr → ExprContext → List Expr
  | [], _ => []
  | e :: es, ctx => set_expr_context e ctx :: set_seq_context es ctx

end

/-! ## concatenate_strings -/

/-- Models `concatenate_strings`: the function computes `first` and
`last` and then executes `return first;` before the concatenation loop,
the bytes/non-bytes mixing check and the `"u"` kind propagation, all of
which are therefore unreachable (the source marks this with a TODO).
`none` models the `assert(len > 0)` precondition being violated. -/
def concatenate_strings : List Expr → Option Expr
  | [] => none
  | first :: _ => some first

/-! ## fstring_compile_expr -/

/-- The characters `fstring_compile_expr` treats as ignorable
whitespace when testing for an empty expression. -/
def isEmptyExprChar (c : Char) : Bool :=
  c = ' ' ∨ c = '\t' ∨ c = '\n' ∨ c = '\x0c'

/-- Models `fstring_compile_expr`.

`start_rule` is the outer parser's start-rule function pointer
(collaborator grammar code); invoking it on the buffer `"(" ++ body ++
")"` through a fresh sub-parser state is modelled as one application,
with `none` covering every failure of the sub-parse (tokenizer error,
rule mismatch).

`undef` stands for the value of `expr->v.Subscript.value` in the
function's final `return` statement: `expr` is not defined anywhere in
the function, so the returned value is unrelated to the parsed module.
When the parse succeeds, control reaches that `return` regardless of
the module's statement count (`raise_syntax_error` on a length other
than one does not return), so the model yields `some undef` for every
successfully parsed module. -/
def fstring_compile_expr (start_rule : String → Option Mod) (undef : Expr)
    (body : String) : Option Expr :=
  if body.toList.all isEmptyExprChar then
    none
  else
    match start_rule ("(" ++ body ++ ")") with
    | none => none
    | some _ => some undef

/-- The module the intended behavior would extract the expression from:
the sole statement's expression value.  Used to state how far the
actual return value diverges from it. -/
def soleStmtExprValue (m : Mod) : Option Expr :=
  match m.body with
  | [Stmt.exprStmt e _] => some e
  | _ => none

/-- A degenerate span for concrete test nodes. -/
def sp0 : Span := ⟨1, 0, 1, 0⟩

/-- A concrete collaborator start rule for exercising
`fstring_compile_expr`: it parses exactly the buffer `"(x)"` into a
module whose single statement is the expression `x`. -/
def ruleX : String → Option Mod :=
  fun s => if s = "(x)" then some ⟨[Stmt.exprStmt (Expr.name "x" ExprContext.load sp0) sp0]⟩ else none

/-! ## Errors

Each constructor stands for one distinct `raise_syntax_error` /
`PyErr_...` site reachable from the modelled functions. -/

/-- Error kinds of the string/f-string machinery. -/
inductive PErr where
  | singleRbrace
  | invalidEscape
  | emptyExpr
  | fstringBackslash
  | fstringHash
  | nestTooDeep
  | parenTooDeep
  | unmatchedClose
  | mismatchedParen
  | untermString
  | unmatchedOpen
  | badConversion
  | expectRbrace
  | unexpectedEnd
  | bytesNonAscii
  | overflowLen
  | internalErr
  | subParseFail
  | fuelOut
deriving DecidableEq, Repr

/-! ## Escape decoding (collaborator)

`decode_unicode_with_escapes` and `decode_bytes_with_escapes` delegate
the escape table to the CPython collaborators
`_PyUnicode_DecodeUnicodeEscape` / `_PyBytes_DecodeEscape`, which are
not part of this repository.  The decoders below are modelled from the
spec: the standard escape table (`\n`, `\t`, `\xNN`, octal, `\\`, …,
plus `\N{…}`/`\uNNNN`/`\UNNNNNNNN` in text mode), with the first
unrecognized escape kept verbatim and flagged so that the caller can
run the invalid-escape deprecation diagnostic.  The `decode_utf8`
pre-pass of the source (re-encoding non-ASCII bytes as `\U` escapes and
decoding them back) is the identity at this model's character
granularity. -/

/-- Value of a hexadecimal digit. -/
def hexVal (c : Char) : Option Nat :=
  if '0' ≤ c ∧ c ≤ '9' then some (c.toNat - 48)
  else if 'a' ≤ c ∧ c ≤ 'f' then some (c.toNat - 87)
  else if 'A' ≤ c ∧ c ≤ 'F' then some (c.toNat - 55)
  else none

/-- Value of an octal digit. -/
def octVal (c : Char) : Option Nat :=
  if '0' ≤ c ∧ c ≤ '7' then some (c.toNat - 48) else none

/-- Consume a `\N{…}` unicode-name body through the closing brace;
`none` when the brace is missing. -/
def skipName : List Char → Option (List Char)
  | [] => none
  | c :: l => if c = '}' then some l else skipName l

/-- Decode one escape sequence (the characters after the backslash):
`some (output, rest)` for a recognized escape, `none` for an invalid
one.  The `\N{…}` name lookup is a further collaborator
(`unicodedata`); its result is abstracted to a replacement character. -/
def decodeOneEscape (textMode : Bool) : List Char → Option (List Char × List Char)
  | '\n' :: rest => some ([], rest)
  | '\\' :: rest => some (['\\'], rest)
  | '\'' :: rest => some (['\''], rest)
  | '"' :: rest => some (['"'], rest)
  | 'a' :: rest => some (['\x07'], rest)
  | 'b' :: rest => some (['\x08'], rest)
  | 'f' :: rest => some (['\x0c'], rest)
  | 'n' :: rest => some (['\n'], rest)
  | 'r' :: rest => some (['\x0d'], rest)
  | 't' :: rest => some (['\t'], rest)
  | 'v' :: rest => some (['\x0b'], rest)
  | 'x' :: c1 :: c2 :: rest =>
    match hexVal c1, hexVal c2 with
    | some h1, some h2 => some ([Char.ofNat (16 * h1 + h2)], rest)
    | _, _ => none
  | 'N' :: '{' :: rest =>
    if textMode then (skipName rest).map (fun r => (['�'], r)) else none
  | 'u' :: c1 :: c2 :: c3 :: c4 :: rest =>
    if textMode then
      match hexVal c1, hexVal c2, hexVal c3, hexVal c4 with
      | some h1, some h2, some h3, some h4 =>
        some ([Char.ofNat (4096 * h1 + 256 * h2 + 16 * h3 + h4)], rest)
      | _, _, _, _ => none
    else none
  | 'U' :: c1 :: c2 :: c3 :: c4 :: c5 :: c6 :: c7 :: c8 :: rest =>
    if textMode then
      match hexVal c1, hexVal c2, hexVal c3, hexVal c4,
            hexVal c5, hexVal c6, hexVal c7, hexVal c8 with
      | some h1, some h2, some h3, some h4, some h5, some h6, some h7, some h8 =>
        some ([Char.ofNat (((((((h1 * 16 + h2) * 16 + h3) * 16 + h4) * 16 + h5) * 16
          + h6) * 16 + h7) * 16 + h8)], rest)
      | _, _, _, _, _, _, _, _ => none
    else none
  | c :: rest =>
    match octVal c with
    | some d1 =>
      match rest with
      | c2 :: rest2 =>
        match octVal c2 with
        | some d2 =>
          match rest2 with
          | c3 :: rest3 =>
            match octVal c3 with
            | some d3 => some ([Char.ofNat (64 * d1 + 8 * d2 + d3)], rest3)
            | none => some ([Char.ofNat (8 * d1 + d2)], rest2)
          | [] => some ([Char.ofNat (8 * d1 + d2)], [])
        | none => some ([Char.ofNat d1], rest)
      | [] => some ([Char.ofNat d1], [])
    | none => none
  | [] => none

/-- Fueled escape-decoding loop; the fuel is the input length (each
step consumes at least one character, so the fallback arm is
unreachable from `decodeEscapes`).  Returns the decoded characters and
whether an invalid escape was seen. -/
def decodeEscapesF (textMode : Bool) : Nat → List Char → List Char × Bool
  | 0, l => (l, false)
  | _ + 1, [] => ([], false)
  | fuel + 1, c :: rest =>
    if c = '\\' then
      match decodeOneEscape textMode rest with
      | some (out, rest2) =>
        let r := decodeEscapesF textMode fuel rest2
        (out ++ r.1, r.2)
      | none =>
        match rest with
        | [] => (['\\'], true)
        | c2 :: rest2 =>
          let r := decodeEscapesF textMode fuel rest2
          ('\\' :: c2 :: r.1, true)
    else
      let r := decodeEscapesF textMode fuel rest
      (c :: r.1, r.2)

/-- Decode all escapes of a byte string. -/
def decodeEscapes (textMode : Bool) (l : List Char) : List Char × Bool :=
  decodeEscapesF textMode l.length l

/-- Models `decode_unicode_with_escapes`: decode, then run the
invalid-escape diagnostic; `warnFail` is the collaborator policy that
promotes the deprecation warning to a syntax error. -/
def decode_unicode_with_escapes (warnFail : Bool) (s : List Char) : Except PErr (List Char) :=
  if (decodeEscapes true s).2 ∧ warnFail then .error .invalidEscape
  else .ok (decodeEscapes true s).1

/-- Models `decode_bytes_with_escapes` (byte mode: no `\N`/`\u`/`\U`). -/
def decode_bytes_with_escapes (warnFail : Bool) (s : List Char) : Except PErr (List Char) :=
  if (decodeEscapes false s).2 ∧ warnFail then .error .invalidEscape
  else .ok (decodeEscapes false s).1

/-! ## fstring_find_literal -/

/-- The scanning loop of `fstring_find_literal`, one character per
step.  `inUName` is true while inside the `while (s < end && *s++ !=
'}')` skip of a `\N{…}` escape.  `rAcc` holds the characters consumed
so far in reverse.  The result is `(literal bytes, result flag, rest)`:
the flag is the source's return value `1` ("literal ends here but
continue scanning", used for doubled braces), and `rest` is where `*str`
was left. -/
def find_literal_loop (warnFail raw : Bool) (lvl : Nat) :
    Bool → List Char → List Char → Except PErr (List Char × Bool × List Char)
  | true, rAcc, [] => .ok (rAcc.reverse, false, [])
  | true, rAcc, c :: rest =>
    if c = '}' then find_literal_loop warnFail raw lvl false (c :: rAcc) rest
    else find_literal_loop warnFail raw lvl true (c :: rAcc) rest
  | false, rAcc, [] => .ok (rAcc.reverse, false, [])
  | false, rAcc, ch :: rest =>
    if ¬raw ∧ ch = '\\' then
      match rest with
      | [] =>
        -- the `s < end` guard fails: `ch` falls through the brace check
        find_literal_loop warnFail raw lvl false ('\\' :: rAcc) []
      | ch2 :: rest2 =>
        if ch2 = 'N' then
          match rest2 with
          | c3 :: rest3 =>
            if c3 = '{' then
              find_literal_loop warnFail raw lvl true ('{' :: 'N' :: '\\' :: rAcc) rest3
            else .ok ((c3 :: 'N' :: '\\' :: rAcc).reverse, false, rest3)
          | [] => .ok (('N' :: '\\' :: rAcc).reverse, false, [])
        else if ch2 = '{' ∧ warnFail then .error .invalidEscape
        else if ch2 = '{' ∨ ch2 = '}' then
          -- the escaped character reaches the brace check
          if lvl = 0 then
            match rest2 with
            | c3 :: rest3 =>
              if c3 = ch2 then .ok ((ch2 :: '\\' :: rAcc).reverse, true, rest3)
              else if ch2 = '}' then .error .singleRbrace
              else .ok (('\\' :: rAcc).reverse, false, ch2 :: rest2)
            | [] =>
              if ch2 = '}' then .error .singleRbrace
              else .ok (('\\' :: rAcc).reverse, false, ch2 :: rest2)
          else .ok (('\\' :: rAcc).reverse, false, ch2 :: rest2)
        else find_literal_loop warnFail raw lvl false (ch2 :: '\\' :: rAcc) rest2
    else if ch = '{' ∨ ch = '}' then
      if lvl = 0 then
        match rest with
        | c2 :: rest2 =>
          if c2 = ch then .ok ((ch :: rAcc).reverse, true, rest2)
          else if ch = '}' then .error .singleRbrace
          else .ok (rAcc.reverse, false, ch :: rest)
        | [] =>
          if ch = '}' then .error .singleRbrace
          else .ok (rAcc.reverse, false, ch :: rest)
      else .ok (rAcc.reverse, false, ch :: rest)
    else find_literal_loop warnFail raw lvl false (ch :: rAcc) rest

/-- Models `fstring_find_literal`: scan up to the end, an undoubled
brace, or a doubled brace at recursion level 0, then decode the scanned
run (verbatim in raw mode, through the escape decoder otherwise).
Returns `(decoded literal or none when empty, result flag, rest)`. -/
def fstring_find_literal (warnFail raw : Bool) (lvl : Nat) (rest : List Char) :
    Except PErr (Option (List Char) × Bool × List Char) :=
  match find_literal_loop warnFail raw lvl false [] rest with
  | .error e => .error e
  | .ok (lit, flag, rest2) =>
    if lit = [] then .ok (none, flag, rest2)
    else if raw then .ok (some lit, flag, rest2)
    else
      match decode_unicode_with_escapes warnFail lit with
      | .error e => .error e
      | .ok out => .ok (some out, flag, rest2)

/-! ## fstring_find_expr: the expression scanning loop -/

/-- Modelled from the spec: `MAXLEVEL`, the bracket-stack bound of
`fstring_find_expr`, is defined in `pegen.h`, which is not part of the
sources; the spec fixes it at 16. -/
def maxBracketLevel : Nat := 16

/-- The character-consuming loop of `fstring_find_expr`, starting just
after the opening `{`.  State: `quote`/`stype` track string nesting
(`quote_char`, `string_type`), `stack` the open brackets
(`parenstack`), `rAcc` the consumed expression characters in reverse.
On loop exit the post-loop checks of the source (unterminated string,
unmatched opening bracket) are applied; the result is the expression
body and the rest of the input (whose head, if any, is the terminator
the loop stopped at). -/
def find_expr_scan (quote : Option Char) (stype : Nat) (stack : List Char) :
    List Char → List Char → Except PErr (List Char × List Char)
  | rAcc, [] =>
    if quote.isSome then .error .untermString
    else if stack ≠ [] then .error .unmatchedOpen
    else .ok (rAcc.reverse, [])
  | rAcc, ch :: rest =>
    if ch = '\\' then .error .fstringBackslash
    else
      match quote with
      | some q =>
        if ch = q then
          if stype = 3 then
            match rest with
            | c2 :: c3 :: rest3 =>
              if c2 = ch ∧ c3 = ch then
                find_expr_scan none 0 stack (c3 :: c2 :: ch :: rAcc) rest3
              else find_expr_scan (some q) stype stack (ch :: rAcc) (c2 :: c3 :: rest3)
            | [c2] => find_expr_scan (some q) stype stack (ch :: rAcc) [c2]
            | [] => find_expr_scan (some q) stype stack (ch :: rAcc) []
          else find_expr_scan none 0 stack (ch :: rAcc) rest
        else find_expr_scan (some q) stype stack (ch :: rAcc) rest
      | none =>
        if ch = '\'' ∨ ch = '"' then
          match rest with
          | c2 :: c3 :: rest3 =>
            if c2 = ch ∧ c3 = ch then
              find_expr_scan (some ch) 3 stack (c3 :: c2 :: ch :: rAcc) rest3
            else find_expr_scan (some ch) 1 stack (ch :: rAcc) (c2 :: c3 :: rest3)
          | [c2] => find_expr_scan (some ch) 1 stack (ch :: rAcc) [c2]
          | [] => find_expr_scan (some ch) 1 stack (ch :: rAcc) []
        else if ch = '[' ∨ ch = '{' ∨ ch = '(' then
          if maxBracketLevel ≤ stack.length then .error .parenTooDeep
          else find_expr_scan none 0 (ch :: stack) (ch :: rAcc) rest
        else if ch = '#' then .error .fstringHash
        else if stack = [] ∧ (ch = '!' ∨ ch = ':' ∨ ch = '}' ∨ ch = '=' ∨ ch = '>' ∨ ch = '<') then
          match rest with
          | next :: rest2 =>
            if (ch = '!' ∧ next = '=') ∨ (ch = '=' ∧ next = '=') ∨
               (ch = '<' ∧ next = '=') ∨ (ch = '>' ∧ next = '=') then
              find_expr_scan none 0 [] (next :: ch :: rAcc) rest2
            else if ch = '>' ∨ ch = '<' then
              find_expr_scan none 0 [] (ch :: rAcc) (next :: rest2)
            else .ok (rAcc.reverse, ch :: next :: rest2)
          | [] => .ok (rAcc.reverse, [ch])
        else if ch = ']' ∨ ch = '}' ∨ ch = ')' then
          match stack with
          | [] => .error .unmatchedClose
          | op :: stack2 =>
            if (op = '(' ∧ ch = ')') ∨ (op = '[' ∧ ch = ']') ∨ (op = '{' ∧ ch = '}') then
              find_expr_scan none 0 stack2 (ch :: rAcc) rest
            else .error .mismatchedParen
        else find_expr_scan none 0 stack (ch :: rAcc) rest
decreasing_by all_goals simp_arith [List.length_cons]

/-- The whitespace class of `Py_ISSPACE`, used when skipping after the
`=` of a debug expression. -/
def isPySpace (c : Char) : Bool :=
  c = ' ' ∨ c = '\t' ∨ c = '\n' ∨ c = '\x0b' ∨ c = '\x0c' ∨ c = '\x0d'

/-- The collaborator context threaded through the f-string sub-parser:
the outer parser's start-rule function pointer, the value standing for
the undefined `expr` of `fstring_compile_expr`'s return statement, and
the warning-promotion policy. -/
structure Collab where
  start_rule : String → Option Mod
  undef : Expr
  warnFail : Bool

/-! ## The f-string assembler state -/

/-- The `FstringParser` accumulator: the pending literal, the collected
expression nodes, and the f-mode flag. -/
structure FstringParser where
  last_str : Option (List Char)
  expr_list : List Expr
  fmode : Bool
deriving Repr

/-- Models `FstringParser_ConcatAndDel`: drop empty strings, otherwise
append to the pending literal. -/
def FstringParser_ConcatAndDel (st : FstringParser) (s : List Char) : FstringParser :=
  if s = [] then st
  else
    match st.last_str with
    | none => { st with last_str := some s }
    | some prev => { st with last_str := some (prev ++ s) }

/-- Models `make_str_node_and_del`: build a constant node from the
string; a value whose first character is `u` is tagged with the `"u"`
kind (the source's TODO-marked `the_str[0] == 'u'` check). -/
def make_str_node_and_del (s : List Char) (t : Span) : Expr :=
  let kind : Option String :=
    match s with
    | 'u' :: _ => some "u"
    | _ => none
  Expr.constant (String.mk s) kind t

/-- Models `FstringParser_Finish`: a plain constant when never in
f-mode, otherwise a joined-string node over the collected expressions
with the pending literal flushed last. -/
def FstringParser_Finish (st : FstringParser) (t : Span) : Expr :=
  if ¬st.fmode then
    make_str_node_and_del (st.last_str.getD []) t
  else
    let elist :=
      match st.last_str with
      | some s => st.expr_list ++ [make_str_node_and_del s t]
      | none => st.expr_list
    Expr.joinedStr elist t

/-! ## The recursive f-string segmentation

The four functions below are mutually recursive in the source
(`fstring_find_expr` → `fstring_parse` → `FstringParser_ConcatFstring`
→ `fstring_find_literal_and_expr` → `fstring_find_expr`); the
recursion is paid for with an explicit fuel argument (every claim is
stated with sufficient fuel).  `FstringParser_ConcatFstring` returns
its final state, the rest of the input and an optional error — the
state is returned even on error because the C caller owns the state
object and (in `string_token`) uses it regardless of the status. -/

mutual

/-- Models `fstring_find_expr`: scan the expression body, compile it
through the sub-parser, then handle the optional `=` debug text, `!`
conversion, `:` format spec (a nested f-string at `lvl + 1`) and the
mandatory closing brace.  Returns `(expr_text, FormattedValue node,
rest)`. -/
def fstring_find_expr (C : Collab) : Nat → List Char → Bool → Nat → Span →
    Except PErr (Option (List Char) × Expr × List Char)
  | 0, _, _, _, _ => .error .fuelOut
  | fuel + 1, rest, raw, lvl, t =>
    if 2 ≤ lvl then .error .nestTooDeep
    else
      match rest with
      | '{' :: r1 =>
        match find_expr_scan none 0 [] [] r1 with
        | .error e => .error e
        | .ok (exprChars, r2) =>
          match r2 with
          | [] => .error .unexpectedEnd
          | t0 :: r3 =>
            match fstring_compile_expr C.start_rule C.undef (String.mk exprChars) with
            | none => .error .subParseFail
            | some simpleExpr =>
              let exprText : Option (List Char) :=
                if t0 = '=' then some (exprChars ++ '=' :: r3.takeWhile isPySpace)
                else none
              let r4 := if t0 = '=' then r3.dropWhile isPySpace else t0 :: r3
              let convStep : Except PErr (Int × List Char) :=
                match r4 with
                | '!' :: rc =>
                  match rc with
                  | [] => .error .unexpectedEnd
                  | c :: rc2 =>
                    if c = 's' ∨ c = 'r' ∨ c = 'a' then .ok (Int.ofNat c.toNat, rc2)
                    else .error .badConversion
                | _ => .ok (-1, r4)
              match convStep with
              | .error e => .error e
              | .ok (conversion, r5) =>
                match r5 with
                | [] => .error .unexpectedEnd
                | ':' :: rc3 =>
                  match rc3 with
                  | [] => .error .unexpectedEnd
                  | _ :: _ =>
                    match fstring_parse C fuel rc3 raw (lvl + 1) t with
                    | .error e => .error e
                    | .ok (formatSpec, r6) =>
                      match r6 with
                      | '}' :: r7 =>
                        .ok (exprText,
                          Expr.formattedValue simpleExpr conversion (some formatSpec) ⟨1, 1, 1, 1⟩,
                          r7)
                      | _ => .error .expectRbrace
                | c :: r6 =>
                  if c = '}' then
                    let conversion2 :=
                      if exprText.isSome ∧ conversion = -1 then Int.ofNat 'r'.toNat
                      else conversion
                    .ok (exprText,
                      Expr.formattedValue simpleExpr conversion2 none ⟨1, 1, 1, 1⟩,
                      r6)
                  else .error .expectRbrace
      | _ => .error .internalErr

/-- Models `fstring_parse`: run a fresh `FstringParser` over the input
and finish it into a node. -/
def fstring_parse (C : Collab) : Nat → List Char → Bool → Nat → Span →
    Except PErr (Expr × List Char)
  | 0, _, _, _, _ => .error .fuelOut
  | fuel + 1, rest, raw, lvl, t =>
    let r := FstringParser_ConcatFstring C fuel ⟨none, [], false⟩ rest raw lvl t
    match r.2.2 with
    | some e => .error e
    | none => .ok (FstringParser_Finish r.1 t, r.2.1)

/-- Models `FstringParser_ConcatFstring`: set f-mode, then run the
segmentation loop. -/
def FstringParser_ConcatFstring (C : Collab) : Nat → FstringParser → List Char → Bool → Nat →
    Span → FstringParser × List Char × Option PErr
  | 0, st, rest, _, _, _ => (st, rest, some .fuelOut)
  | fuel + 1, st, rest, raw, lvl, t =>
    concatFstringLoop C fuel { st with fmode := true } rest raw lvl t

/-- The `while (1)` loop of `FstringParser_ConcatFstring`: fetch the
next literal/expression pair, accumulate, and either continue (doubled
brace), stop (no expression), or append the expression and loop.  On
stopping, apply the source's end-of-string checks (`*str < end-1` at
level 0; `**str != '}'` at deeper levels). -/
def concatFstringLoop (C : Collab) : Nat → FstringParser → List Char → Bool → Nat → Span →
    FstringParser × List Char × Option PErr
  | 0, st, rest, _, _, _ => (st, rest, some .fuelOut)
  | fuel + 1, st, rest, raw, lvl, t =>
    match fstring_find_literal_and_expr C fuel rest raw lvl t with
    | .error e => (st, rest, some e)
    | .ok (literal, flag, exprText, expression, r1) =>
      let st1 :=
        match literal with
        | some l => FstringParser_ConcatAndDel st l
        | none => st
      let st2 :=
        match exprText with
        | some l => FstringParser_ConcatAndDel st1 l
        | none => st1
      if flag then concatFstringLoop C fuel st2 r1 raw lvl t
      else
        match expression with
        | none =>
          if lvl = 0 ∧ 1 < r1.length then (st2, r1, some .unexpectedEnd)
          else if lvl ≠ 0 ∧ r1.headD '\x00' ≠ '}' then (st2, r1, some .expectRbrace)
          else (st2, r1, none)
        | some expr =>
          let st3 :=
            match st2.last_str with
            | none => st2
            | some s =>
              { st2 with last_str := none,
                         expr_list := st2.expr_list ++ [make_str_node_and_del s t] }
          let st4 := { st3 with expr_list := st3.expr_list ++ [expr] }
          concatFstringLoop C fuel st4 r1 raw lvl t

/-- Models `fstring_find_literal_and_expr`: a literal (via
`fstring_find_literal`), then — unless the doubled-brace flag was
returned or the input is exhausted or at a closing brace — an
expression (via `fstring_find_expr`).  Returns `(literal, flag,
expr_text, expression, rest)`. -/
def fstring_find_literal_and_expr (C : Collab) : Nat → List Char → Bool → Nat → Span →
    Except PErr (Option (List Char) × Bool × Option (List Char) × Option Expr × List Char)
  | 0, _, _, _, _ => .error .fuelOut
  | fuel + 1, rest, raw, lvl, t =>
    match fstring_find_literal C.warnFail raw lvl rest with
    | .error e => .error e
    | .ok (literal, flag, r1) =>
      if flag then .ok (literal, true, none, none, r1)
      else
        match r1 with
        | [] => .ok (literal, false, none, none, [])
        | c :: _ =>
          if c = '}' then .ok (literal, false, none, none, r1)
          else
            match fstring_find_expr C fuel r1 raw lvl t with
            | .error e => .error e
            | .ok (exprText, expression, r2) => .ok (literal, false, exprText, some expression, r2)

end

/-! ## parsestr -/

/-- The result of `parsestr`: either a decoded plain/bytes string (the
`*result` out-parameter) or the undecoded body of an f-string (the
`*fstr`/`*fstrlen` out-parameters), in both cases together with the
mode flags the caller reads back. -/
inductive ParseStrResult where
  | str (bytesmode rawmode : Bool) (value : List Char)
  | fstr (rawmode : Bool) (body : List Char)
deriving Repr

/-- The prefix-consuming loop of `parsestr`: consume `b`/`u`/`r`/`f`
letters (in any case and order) while not both bytes-mode and raw-mode
are set, accumulating the flags.  Returns `(bytesmode, rawmode, fmode,
rest)`. -/
def parsestrPrefixLoop (bm rm fm : Bool) : List Char → Bool × Bool × Bool × List Char
  | [] => (bm, rm, fm, [])
  | s@(c :: rest) =>
    if bm ∧ rm then (bm, rm, fm, s)
    else if c = 'b' ∨ c = 'B' then parsestrPrefixLoop true rm fm rest
    else if c = 'u' ∨ c = 'U' then parsestrPrefixLoop bm rm fm rest
    else if c = 'r' ∨ c = 'R' then parsestrPrefixLoop bm true fm rest
    else if c = 'f' ∨ c = 'F' then parsestrPrefixLoop bm rm true rest
    else (bm, rm, fm, s)

/-- The framing part of `parsestr`: prefix flags, quote recognition,
length bookkeeping and closing-quote verification (including the
triple-quote adjustment).  Returns the flags, the remaining C string
`s` (which still carries the closing quote characters — C strings are
only delimited by their terminator) and the body length `len`.
`internalErr` models `PyErr_BadInternalCall`. -/
def parsestr_frame (cs : List Char) : Except PErr (Bool × Bool × Bool × List Char × Nat) :=
  match parsestrPrefixLoop false false false cs with
  | (bm, rm, fm, s0) =>
    if fm ∧ bm then .error .internalErr
    else
      match s0 with
      | [] => .error .internalErr
      | q :: s1 =>
        if ¬(q = '\'' ∨ q = '"') then .error .internalErr
        else if 2147483647 < s1.length then .error .overflowLen
        else
          match s1.length with
          | 0 => .error .internalErr
          | len0 + 1 =>
            if s1.getD len0 '\x00' ≠ q then .error .internalErr
            else if 4 ≤ len0 ∧ s1.getD 0 '\x00' = q ∧ s1.getD 1 '\x00' = q then
              if (s1.drop 2).getD (len0 - 2 - 1) '\x00' ≠ q ∨
                  (s1.drop 2).getD (len0 - 2 - 2) '\x00' ≠ q then
                .error .internalErr
              else .ok (bm, rm, fm, s1.drop 2, len0 - 2 - 2)
            else .ok (bm, rm, fm, s1, len0)

/-- Models `parsestr`.  For f-strings the undecoded body is handed
back; otherwise raw mode is extended to escape-free strings, bytes
literals are scanned for non-ASCII bytes (over the whole remaining C
string, i.e. including the closing quotes) before any decoding, and
the body is decoded according to the modes. -/
def parsestr (C : Collab) (cs : List Char) : Except PErr ParseStrResult :=
  match parsestr_frame cs with
  | .error e => .error e
  | .ok (bm, rm, fm, s, len) =>
    if fm then .ok (.fstr rm (s.take len))
    else if bm then
      if s.any (fun c => 0x80 ≤ c.toNat) then .error .bytesNonAscii
      else if rm ∨ ¬s.contains '\\' then
        .ok (.str true (rm ∨ ¬s.contains '\\') (s.take len))
      else
        match decode_bytes_with_escapes C.warnFail (s.take len) with
        | .error e => .error e
        | .ok v => .ok (.str true (rm ∨ ¬s.contains '\\') v)
    else if rm ∨ ¬s.contains '\\' then
      .ok (.str false (rm ∨ ¬s.contains '\\') (s.take len))
    else
      match decode_unicode_with_escapes C.warnFail (s.take len) with
      | .error e => .error e
      | .ok v => .ok (.str false (rm ∨ ¬s.contains '\\') v)

/-! ## string_token -/

/-- Models `string_token` from the point where the `STRING` token's
bytes are in hand (the `expect_token(p, STRING)` step and the arena
bookkeeping are engine/collaborator concerns).  On the f-string path
the source assigns `FstringParser_ConcatFstring`'s status to the local
`result` and never reads it: `FstringParser_Finish` is called and its
node returned regardless, which this model reproduces. -/
def string_token (C : Collab) (fuel : Nat) (tokBytes : List Char) (t : Span) : Option Expr :=
  match parsestr C tokBytes with
  | .error _ => none
  | .ok res =>
    let kindUnicode := tokBytes.headD '\x00' = 'u'
    match res with
    | .fstr rawmode body =>
      let r := FstringParser_ConcatFstring C fuel ⟨none, [], false⟩ body rawmode 0 t
      some (FstringParser_Finish r.1 t)
    | .str bytesmode _ value =>
      let uKind := if ¬bytesmode ∧ kindUnicode then some "u" else none
      some (Expr.constant (String.mk value) uKind t)

/-! # Theorems -/

/-! ## C5: the lookahead contract -/

/-- C5: for every parser state, every parse function and each of the
three lookahead arities (no extra argument, string argument, int
argument), lookahead saves `mark`, invokes the function, restores
`mark` (the mark after the call equals the mark before) and returns
`(result != NULL) == positive`. -/
theorem lookahead_saves_and_restores_mark :
    (∀ (positive : Bool) (func : Parser → Option Nat × Parser) (p : Parser),
      (lookahead positive func p).2.mark = p.mark ∧
      (lookahead positive func p).1 = ((func p).1.isSome == positive)) ∧
    (∀ (positive : Bool) (func : Parser → String → Option Nat × Parser) (p : Parser)
      (arg : String),
      (lookahead_with_string positive func p arg).2.mark = p.mark ∧
      (lookahead_with_string positive func p arg).1 = ((func p arg).1.isSome == positive)) ∧
    (∀ (positive : Bool) (func : Parser → Int → Option Token × Parser) (p : Parser)
      (arg : Int),
      (lookahead_with_int positive func p arg).2.mark = p.mark ∧
      (lookahead_with_int positive func p arg).1 = ((func p arg).1.isSome == positive)) :=
  ⟨fun _ _ _ => ⟨rfl, rfl⟩, fun _ _ _ _ => ⟨rfl, rfl⟩, fun _ _ _ _ => ⟨rfl, rfl⟩⟩

/-! ## C10: concatenate_strings -/

/-- C10: for every non-empty input sequence of string expression
nodes, `concatenate_strings` returns the first element of the sequence
unchanged — the concatenation loop, the bytes/non-bytes mixing check
and the `"u"` kind propagation after the early `return first;` are
unreachable. -/
theorem concatenate_strings_returns_first (first : Expr) (rest : List Expr) :
    concatenate_strings (first :: rest) = some first := rfl

/-! ## C1: fstring_compile_expr returns an undefined value -/

/-- C1 (code bug): on a body (`"x"`) that the sub-parser invocation
parses successfully into a module with exactly one statement whose
expression value is the name `x`, `fstring_compile_expr` does not
return that expression value: it returns `expr->v.Subscript.value` for
an `expr` that is not defined in the function, so the result is
whatever that indeterminate value happens to be (`undef` in the model)
— for two different indeterminate values the function returns two
different results, and neither is the statement's expression value. -/
theorem fstring_compile_expr_returns_undef_value :
    ruleX "(x)" = some ⟨[Stmt.exprStmt (Expr.name "x" ExprContext.load sp0) sp0]⟩ ∧
    soleStmtExprValue ⟨[Stmt.exprStmt (Expr.name "x" ExprContext.load sp0) sp0]⟩ =
      some (Expr.name "x" ExprContext.load sp0) ∧
    fstring_compile_expr ruleX (Expr.other 0 sp0) "x" = some (Expr.other 0 sp0) ∧
    fstring_compile_expr ruleX (Expr.other 1 sp0) "x" = some (Expr.other 1 sp0) ∧
    Expr.other 0 sp0 ≠ Expr.name "x" ExprContext.load sp0 :=
  ⟨rfl, rfl, rfl, rfl, fun h => Expr.noConfusion h⟩

/-! ## C6: set_expr_context replaces rather than stacks -/

mutual

/-- Context rewriting twice equals rewriting once (expression form). -/
theorem sec_replace : ∀ (e : Expr) (A B : ExprContext),
    set_expr_context (set_expr_context e A) B = set_expr_context e B
  | .name _ _ _, _, _ => rfl
  | .constant _ _ _, _, _ => rfl
  | .tuple elts _ _, A, B => by
    simp only [set_expr_context]
    rw [ssc_replace elts A B]
  | .list elts _ _, A, B => by
    simp only [set_expr_context]
    rw [ssc_replace elts A B]
  | .subscript _ _ _ _, _, _ => rfl
  | .attribute _ _ _ _, _, _ => rfl
  | .starred v _ _, A, B => by
    simp only [set_expr_context]
    rw [sec_replace v A B]
  | .joinedStr _ _, _, _ => rfl
  | .formattedValue _ _ _ _, _, _ => rfl
  | .other _ _, _, _ => rfl

/-- Context rewriting twice equals rewriting once (sequence form). -/
theorem ssc_replace : ∀ (es : List Expr) (A B : ExprContext),
    set_seq_context (set_seq_context es A) B = set_seq_context es B
  | [], _, _ => rfl
  | e :: es, A, B => by
    simp only [set_seq_context]
    rw [sec_replace e A B, ssc_replace es A B]

end

/-- C6: for all expressions `e` and contexts `A`, `B`,
`set_expr_context (set_expr_context e A) B = set_expr_context e B`:
the context rewrite replaces the context rather than stacking, over
the recognized shapes (name, tuple, list, subscript, attribute,
starred, with tuple and list recursing element-wise via
`_set_seq_context`) and with all other shapes passed through
unchanged. -/
theorem set_expr_context_replaces_context :
    (∀ (e : Expr) (A B : ExprContext),
      set_expr_context (set_expr_context e A) B = set_expr_context e B) ∧
    (∀ (es : List Expr) (A B : ExprContext),
      set_seq_context (set_seq_context es A) B = set_seq_context es B) :=
  ⟨sec_replace, ssc_replace⟩

/-! ## Memoization helper lemmas -/

theorem listModify_length (f : Token → Token) : ∀ (n : Nat) (l : List Token),
    (listModify f n l).length = l.length
  | n, [] => by cases n <;> rfl
  | 0, _ :: _ => rfl
  | n + 1, _ :: ts => by
    simp only [listModify, List.length_cons, listModify_length f n ts]

theorem listModify_getElem_self (f : Token → Token) : ∀ (n : Nat) (l : List Token),
    (listModify f n l)[n]? = (l[n]?).map f
  | n, [] => by cases n <;> simp [listModify]
  | 0, _ :: _ => by simp [listModify]
  | n + 1, _ :: ts => by
    simp only [listModify, List.getElem?_cons_succ]
    exact listModify_getElem_self f n ts

theorem listModify_getElem_ne (f : Token → Token) : ∀ (n m : Nat) (l : List Token), n ≠ m →
    (listModify f n l)[m]? = l[m]?
  | n, _, [], _ => by cases n <;> simp [listModify]
  | 0, 0, _ :: _, h => absurd rfl h
  | 0, _ + 1, _ :: _, _ => by simp [listModify]
  | _ + 1, 0, _ :: _, _ => by simp [listModify]
  | n + 1, m + 1, _ :: ts, h => by
    simp only [listModify, List.getElem?_cons_succ]
    exact listModify_getElem_ne f n m ts (fun hnm => h (by rw [hnm]))

theorem updateChain_some_lookup (t : Nat) (n : Option Nat) (e : Nat) :
    ∀ (c c' : List Memo), updateChain t n e c = some c' →
      ∀ r, memoLookup r c' = if t = r then some ⟨t, n, e⟩ else memoLookup r c
  | [], _, h => nomatch h
  | m :: ms, c', h => by
    intro r
    by_cases hm : m.type = t
    · rw [updateChain, if_pos hm] at h
      cases h
      by_cases htr : t = r
      · subst htr
        simp [memoLookup, hm]
      · have hmr : ¬m.type = r := fun hmr => htr (hm ▸ hmr)
        simp [memoLookup, hmr, htr]
    · rw [updateChain, if_neg hm] at h
      cases h2 : updateChain t n e ms with
      | none => rw [h2] at h; nomatch h
      | some ms2 =>
        rw [h2] at h
        cases h
        have ih := updateChain_some_lookup t n e ms ms2 h2 r
        by_cases hmr : m.type = r
        · have htr : ¬t = r := fun htr => hm (htr ▸ hmr)
          simp [memoLookup, hmr, htr]
        · simp [memoLookup, hmr, ih]

theorem chainAt_insert (p : Parser) (q t : Nat) (n : Option Nat) (pos r : Nat)
    (hq : q < p.tokens.length) :
    memoLookup r (chainAt (insert_memo p q t n) pos) =
      orO (if q = pos ∧ t = r then some ⟨r, n, p.mark⟩ else none)
        (memoLookup r (chainAt p pos)) := by
  by_cases hpos : q = pos
  · subst hpos
    obtain ⟨tok, htok⟩ : ∃ tok, p.tokens[q]? = some tok :=
      ⟨p.tokens[q], List.getElem?_eq_getElem hq⟩
    have hget : (insert_memo p q t n).tokens[q]? =
        some { tok with memo := ⟨t, n, p.mark⟩ :: tok.memo } := by
      show (listModify _ q p.tokens)[q]? = _
      rw [listModify_getElem_self, htok]
      rfl
    simp only [chainAt, hget, htok]
    by_cases htr : t = r
    · subst htr; simp [memoLookup, orO]
    · simp [memoLookup, htr, orO]
  · have hget : (insert_memo p q t n).tokens[pos]? = p.tokens[pos]? :=
      listModify_getElem_ne _ q pos p.tokens hpos
    simp only [chainAt, hget]
    simp [hpos, orO]

theorem applyWrite_mark (p : Parser) (w : MemoWrite) : (applyWrite p w).mark = p.mark := by
  cases w with
  | ins q t n => rfl
  | upd q t n =>
    show (update_memo p q t n).mark = p.mark
    cases htok : p.tokens[q]? with
    | none => simp [update_memo, htok, insert_memo]
    | some tok =>
      cases hup : updateChain t n p.mark tok.memo with
      | none => simp [update_memo, htok, hup, insert_memo]
      | some chain => simp [update_memo, htok, hup]

theorem applyWrite_tokens_length (p : Parser) (w : MemoWrite) :
    (applyWrite p w).tokens.length = p.tokens.length := by
  cases w with
  | ins q t n => simp [applyWrite, insert_memo, listModify_length]
  | upd q t n =>
    show (update_memo p q t n).tokens.length = p.tokens.length
    cases htok : p.tokens[q]? with
    | none => simp [update_memo, htok, insert_memo, listModify_length]
    | some tok =>
      cases hup : updateChain t n p.mark tok.memo with
      | none => simp [update_memo, htok, hup, insert_memo, listModify_length]
      | some chain => simp [update_memo, htok, hup, listModify_length]

theorem chainAt_applyWrite (p : Parser) (w : MemoWrite) (pos r : Nat)
    (hw : MemoWrite.pos w < p.tokens.length) :
    memoLookup r (chainAt (applyWrite p w) pos) =
      orO (writeAt pos r p.mark w) (memoLookup r (chainAt p pos)) := by
  cases w with
  | ins q t n =>
    exact chainAt_insert p q t n pos r hw
  | upd q t n =>
    have hq : q < p.tokens.length := hw
    obtain ⟨tok, htok⟩ : ∃ tok, p.tokens[q]? = some tok :=
      ⟨p.tokens[q], List.getElem?_eq_getElem hq⟩
    show memoLookup r (chainAt (update_memo p q t n) pos) = _
    cases hup : updateChain t n p.mark tok.memo with
    | none =>
      have hstep : update_memo p q t n = insert_memo p q t n := by
        simp [update_memo, htok, hup]
      rw [hstep]
      exact chainAt_insert p q t n pos r hq
    | some chain =>
      have hstep : update_memo p q t n =
          { p with tokens := listModify (fun t2 => { t2 with memo := chain }) q p.tokens } := by
        simp [update_memo, htok, hup]
      rw [hstep]
      by_cases hpos : q = pos
      · subst hpos
        have hget : (listModify (fun t2 => { t2 with memo := chain }) q p.tokens)[q]? =
            some { tok with memo := chain } := by
          rw [listModify_getElem_self, htok]
          rfl
        simp only [chainAt, hget, htok]
        rw [updateChain_some_lookup t n p.mark tok.memo chain hup r]
        by_cases htr : t = r
        · subst htr; simp [writeAt, orO]
        · simp [writeAt, htr, orO]
      · have hget : (listModify (fun t2 => { t2 with memo := chain }) q p.tokens)[pos]? =
            p.tokens[pos]? := listModify_getElem_ne _ q pos p.tokens hpos
        simp only [chainAt, hget]
        simp [writeAt, hpos, orO]

theorem orO_assoc (a b c : Option Memo) : orO a (orO b c) = orO (orO a b) c := by
  cases a <;> cases b <;> rfl

theorem getLast?_cons_orO (b : Memo) (l : List Memo) :
    (b :: l).getLast? = orO l.getLast? (some b) := by
  cases l with
  | nil => rfl
  | cons c cs =>
    rw [List.getLast?_cons_cons]
    obtain ⟨x, hx⟩ : ∃ x, (c :: cs).getLast? = some x := by
      have h2 : (c :: cs).getLast?.isSome := List.getLast?_isSome.mpr (by simp)
      exact Option.isSome_iff_exists.mp h2
    rw [hx]; rfl

theorem lastWriteAt_cons (pos r m : Nat) (w : MemoWrite) (ws : List MemoWrite) :
    lastWriteAt pos r m (w :: ws) = orO (lastWriteAt pos r m ws) (writeAt pos r m w) := by
  unfold lastWriteAt
  rw [List.filterMap_cons]
  cases hf : writeAt pos r m w with
  | none =>
    cases hl : (ws.filterMap (writeAt pos r m)).getLast? <;> simp [orO, hl]
  | some b =>
    exact getLast?_cons_orO b _

theorem liveEntries_countP_le (c : List Memo) (r : Nat) :
    (liveEntries c).countP (fun m => decide (m.type = r)) ≤ 1 := by
  induction c with
  | nil => simp [liveEntries]
  | cons m ms ih =>
    rw [show liveEntries (m :: ms) =
        m :: (liveEntries ms).filter (fun m2 => decide (m2.type ≠ m.type)) from rfl,
      List.countP_cons]
    by_cases h : m.type = r
    · have hz : ((liveEntries ms).filter (fun m2 => decide (m2.type ≠ m.type))).countP
          (fun m2 => decide (m2.type = r)) = 0 := by
        rw [List.countP_eq_zero]
        intro a ha
        have h2 := List.of_mem_filter ha
        simp only [decide_eq_true_eq, ne_eq, decide_not, Bool.not_eq_true] at h2 ⊢
        intro har
        rw [har, h] at h2
        simp at h2
      rw [hz]
      split <;> omega
    · have hle : ((liveEntries ms).filter (fun m2 => decide (m2.type ≠ m.type))).countP
          (fun m2 => decide (m2.type = r)) ≤ 1 :=
        le_trans (List.Sublist.countP_le _ (List.filter_sublist _)) ih
      have hfalse : (decide (m.type = r)) = false := by simp [h]
      rw [hfalse]
      simpa using hle

theorem runWrites_lookup (ws : List MemoWrite) : ∀ (p : Parser) (pos r : Nat),
    (∀ w ∈ ws, MemoWrite.pos w < p.tokens.length) →
    memoLookup r (chainAt (runWrites p ws) pos) =
      orO (lastWriteAt pos r p.mark ws) (memoLookup r (chainAt p pos)) := by
  induction ws with
  | nil =>
    intro p pos r _
    simp [runWrites, lastWriteAt, orO]
  | cons w ws ih =>
    intro p pos r hw
    have hw0 : MemoWrite.pos w < p.tokens.length := hw w (by simp)
    have hws : ∀ w2 ∈ ws, MemoWrite.pos w2 < (applyWrite p w).tokens.length := by
      intro w2 h2
      rw [applyWrite_tokens_length]
      exact hw w2 (by simp [h2])
    show memoLookup r (chainAt (runWrites (applyWrite p w) ws) pos) = _
    rw [ih (applyWrite p w) pos r hws, applyWrite_mark,
        chainAt_applyWrite p w pos r hw0, lastWriteAt_cons, orO_assoc]

/-! ## C3: is_memoized hits what insert_memo stored -/

/-- C3: for every rule id and position, after `insert_memo` at
position `pos` storing node `n` (with the cursor, i.e. the end
position, at `p.mark`), a call to `is_memoized` with the cursor at
`pos` returns a hit, yields `n` through the output slot and sets the
cursor mark to the stored end position. -/
theorem is_memoized_hit_after_insert_memo (p : Parser) (pos type : Nat) (node : Option Nat)
    (hpos : pos < p.tokens.length) :
    is_memoized { insert_memo p pos type node with mark := pos } type =
      some (some node, { insert_memo p pos type node with mark := p.mark }) := by
  have hlen : (insert_memo p pos type node).tokens.length = p.tokens.length := by
    simp [insert_memo, listModify_length]
  obtain ⟨tok, htok⟩ : ∃ tok, p.tokens[pos]? = some tok :=
    ⟨p.tokens[pos], List.getElem?_eq_getElem hpos⟩
  have hget : (insert_memo p pos type node).tokens[pos]? =
      some { tok with memo := ⟨type, node, p.mark⟩ :: tok.memo } := by
    show (listModify _ pos p.tokens)[pos]? = _
    rw [listModify_getElem_self, htok]
    rfl
  have hcond : ({ insert_memo p pos type node with mark := pos } : Parser).mark ≠
      ({ insert_memo p pos type node with mark := pos } : Parser).tokens.length := by
    show pos ≠ (insert_memo p pos type node).tokens.length
    rw [hlen]
    omega
  unfold is_memoized
  rw [if_neg hcond]
  simp [hget, memoLookup]

/-- Witness for C3 at a concrete parser with one materialized token. -/
theorem is_memoized_hit_after_insert_memo_witness :
    is_memoized { insert_memo ⟨[⟨5, []⟩], 1, []⟩ 0 7 (some 42) with mark := 0 } 7 =
      some (some (some 42), { insert_memo ⟨[⟨5, []⟩], 1, []⟩ 0 7 (some 42) with mark := 1 }) :=
  is_memoized_hit_after_insert_memo ⟨[⟨5, []⟩], 1, []⟩ 0 7 (some 42) (by decide)

/-! ## C4: at most one live memo entry per rule id -/

/-- C4: after any sequence of `insert_memo` / `update_memo` operations
(at positions with materialized tokens), each token's memo chain
contains at most one live entry per rule id — an entry is live when no
entry closer to the head carries the same rule id — and the live entry
observed for a rule id is exactly the last write to that `(position,
rule)` pair, falling back to the original chain when the sequence never
wrote it. -/
theorem memo_chain_one_live_entry_per_rule (p : Parser) (ws : List MemoWrite) (pos r : Nat)
    (hw : ∀ w ∈ ws, MemoWrite.pos w < p.tokens.length) :
    (liveEntries (chainAt (runWrites p ws) pos)).countP (fun m => decide (m.type = r)) ≤ 1 ∧
    memoLookup r (chainAt (runWrites p ws) pos) =
      orO (lastWriteAt pos r p.mark ws) (memoLookup r (chainAt p pos)) :=
  ⟨liveEntries_countP_le _ r, runWrites_lookup ws p pos r hw⟩

/-- Witness for C4: two inserts and one update on the same rule id at
a concrete parser. -/
theorem memo_chain_one_live_entry_per_rule_witness :
    (liveEntries (chainAt (runWrites ⟨[⟨5, []⟩], 3, []⟩
        [MemoWrite.ins 0 7 (some 1), MemoWrite.ins 0 7 (some 2), MemoWrite.upd 0 7 none]) 0)).countP
      (fun m => decide (m.type = 7)) ≤ 1 ∧
    memoLookup 7 (chainAt (runWrites ⟨[⟨5, []⟩], 3, []⟩
        [MemoWrite.ins 0 7 (some 1), MemoWrite.ins 0 7 (some 2), MemoWrite.upd 0 7 none]) 0) =
      orO (lastWriteAt 0 7 3
        [MemoWrite.ins 0 7 (some 1), MemoWrite.ins 0 7 (some 2), MemoWrite.upd 0 7 none])
        (memoLookup 7 (chainAt ⟨[⟨5, []⟩], 3, []⟩ 0)) :=
  memo_chain_one_live_entry_per_rule ⟨[⟨5, []⟩], 3, []⟩
    [MemoWrite.ins 0 7 (some 1), MemoWrite.ins 0 7 (some 2), MemoWrite.upd 0 7 none] 0 7
    (by decide)

/-! ## C9: terminators of the f-string expression scan -/

/-- C9 (counterexample): the claim says a single `<` at bracket depth
0 outside a string is never a terminator (scanning continues past it).
On the body `a<`, where `<` is the last character, the scan stops at
the `<` (result `(["a"], ["<"])`) instead of consuming it and reaching
the end (which would give `(["a", "<"], [])`): the `*str+1 < end`
guard skips the "continue" path when no character follows. -/
theorem find_expr_scan_stops_at_trailing_lt :
    find_expr_scan none 0 [] [] ['a', '<'] = .ok (['a'], ['<']) ∧
    (Except.ok (['a'], ['<']) : Except PErr (List Char × List Char)) ≠ .ok (['a', '<'], []) := by
  constructor
  · simp [find_expr_scan]
  · simp

/-- C9 (amended): during f-string expression scanning at bracket depth
0 and outside a string, (i) a single `<` or `>` that is followed by at
least one character which is not `=` is not a terminator — the scan
continues past it; (ii) the two-character operators `!=`, `==`, `<=`,
`>=` are consumed as one unit; (iii) `:` and `}` always end the body,
and `!` and `=` end it when not followed by `=`; (iv) — the part the
counterexample forces — a `<`, `>`, `!`, `:`, `}` or `=` that is the
last character of the body ends the scan there. -/
theorem find_expr_scan_terminator_rules (ch next : Char) (rest rAcc : List Char) :
    ((ch = '<' ∨ ch = '>') → next ≠ '=' →
      find_expr_scan none 0 [] rAcc (ch :: next :: rest) =
        find_expr_scan none 0 [] (ch :: rAcc) (next :: rest)) ∧
    ((ch = '!' ∨ ch = '=' ∨ ch = '<' ∨ ch = '>') → next = '=' →
      find_expr_scan none 0 [] rAcc (ch :: next :: rest) =
        find_expr_scan none 0 [] (next :: ch :: rAcc) rest) ∧
    ((ch = ':' ∨ ch = '}') →
      find_expr_scan none 0 [] rAcc (ch :: next :: rest) = .ok (rAcc.reverse, ch :: next :: rest)) ∧
    ((ch = '!' ∨ ch = '=') → next ≠ '=' →
      find_expr_scan none 0 [] rAcc (ch :: next :: rest) = .ok (rAcc.reverse, ch :: next :: rest)) ∧
    ((ch = '<' ∨ ch = '>' ∨ ch = '!' ∨ ch = ':' ∨ ch = '}' ∨ ch = '=') →
      find_expr_scan none 0 [] rAcc [ch] = .ok (rAcc.reverse, [ch])) := by
  refine ⟨?_, ?_, ?_, ?_, ?_⟩
  · rintro (rfl | rfl) h2 <;> (conv_lhs => rw [find_expr_scan.eq_def]) <;> simp [h2]
  · rintro (rfl | rfl | rfl | rfl) rfl <;> (conv_lhs => rw [find_expr_scan.eq_def]) <;> simp
  · rintro (rfl | rfl) <;> (conv_lhs => rw [find_expr_scan.eq_def]) <;> simp
  · rintro (rfl | rfl) h2 <;> (conv_lhs => rw [find_expr_scan.eq_def]) <;> simp [h2]
  · rintro (rfl | rfl | rfl | rfl | rfl | rfl) <;> (conv_lhs => rw [find_expr_scan.eq_def]) <;> simp

/-- Witness for C9's amended theorem: past a `<` followed by `b` the
scan continues. -/
theorem find_expr_scan_terminator_rules_witness :
    find_expr_scan none 0 [] [] ['<', 'b'] = find_expr_scan none 0 [] ['<'] ['b'] :=
  (find_expr_scan_terminator_rules '<' 'b' [] []).1 (Or.inl rfl) (by decide)

/-! ## C8: the bytes-non-ascii error -/

theorem decode_unicode_error_kind (w : Bool) (s : List Char) (e : PErr)
    (h : decode_unicode_with_escapes w s = .error e) : e = .invalidEscape := by
  unfold decode_unicode_with_escapes at h
  split at h
  · injection h with h2; exact h2.symm
  · exact Except.noConfusion h

theorem decode_bytes_error_kind (w : Bool) (s : List Char) (e : PErr)
    (h : decode_bytes_with_escapes w s = .error e) : e = .invalidEscape := by
  unfold decode_bytes_with_escapes at h
  split at h
  · injection h with h2; exact h2.symm
  · exact Except.noConfusion h

theorem parsestr_frame_error_kinds (cs : List Char) (e : PErr)
    (h : parsestr_frame cs = .error e) : e = .internalErr ∨ e = .overflowLen := by
  unfold parsestr_frame at h
  repeat' split at h
  all_goals
    first
      | exact Except.noConfusion h
      | (injection h with h2; exact Or.inl h2.symm)
      | (injection h with h2; exact Or.inr h2.symm)

/-- C8 (counterexample): the raw bytes literal `rb'é'` (one body byte
`0xE9 ≥ 0x80`) makes `parsestr` raise the bytes-non-ascii error even
though it is in raw mode — the non-ASCII scan runs before the
raw-mode/escape-decoding branch — contradicting the claim that every
raw-mode bytes literal decodes verbatim with no error regardless of
content. -/
theorem parsestr_raw_bytes_nonascii_counterexample :
    parsestr_frame ['r', 'b', '\'', 'é', '\''] = .ok (true, true, false, ['é', '\''], 1) ∧
    parsestr ⟨ruleX, Expr.other 0 sp0, false⟩ ['r', 'b', '\'', 'é', '\''] =
      .error .bytesNonAscii :=
  ⟨rfl, rfl⟩

/-- C8 (amended): `parsestr` raises the bytes-non-ascii error exactly
when the token frames as a bytes literal (raw or not, not an f-string)
whose remaining C string contains a byte ≥ 0x80 (the scan covers the
body and the trailing ASCII quote characters); and a raw-mode bytes
literal decodes to its body bytes verbatim exactly when all scanned
bytes are ASCII. -/
theorem parsestr_bytes_nonascii_iff (C : Collab) (cs : List Char) :
    (parsestr C cs = .error .bytesNonAscii ↔
      ∃ rm s len, parsestr_frame cs = .ok (true, rm, false, s, len) ∧
        ∃ c ∈ s, 0x80 ≤ c.toNat) ∧
    (∀ rm s len, parsestr_frame cs = .ok (true, rm, false, s, len) →
      (∀ c ∈ s, c.toNat < 0x80) → rm = true →
      parsestr C cs = .ok (.str true true (s.take len))) := by
  constructor
  · constructor
    · intro h
      unfold parsestr at h
      cases hf : parsestr_frame cs with
      | error e =>
        rw [hf] at h
        injection h with h2
        rcases parsestr_frame_error_kinds cs e hf with rfl | rfl <;> exact PErr.noConfusion h2
      | ok res =>
        obtain ⟨bm, rm, fm, s, len⟩ := res
        rw [hf] at h
        by_cases hfm : fm
        · subst hfm; simp at h
        · simp only [Bool.not_eq_true] at hfm
          subst hfm
          simp only [Bool.false_eq_true, if_false] at h
          by_cases hbm : bm
          · subst hbm
            by_cases hany : s.any (fun c => decide (0x80 ≤ c.toNat))
            · refine ⟨rm, s, len, rfl, ?_⟩
              obtain ⟨c, hc, hcb⟩ := List.any_eq_true.mp hany
              exact ⟨c, hc, by simpa using hcb⟩
            · rw [Bool.not_eq_true] at hany
              rw [if_pos rfl, hany] at h
              simp only [Bool.false_eq_true, if_false] at h
              split at h
              · exact Except.noConfusion h
              · split at h
                · rename_i e he
                  injection h with h2
                  exact absurd (h2 ▸ decode_bytes_error_kind _ _ e he) (by simp)
                · exact Except.noConfusion h
          · simp only [Bool.not_eq_true] at hbm
            subst hbm
            simp only [Bool.false_eq_true, if_false] at h
            split at h
            · exact Except.noConfusion h
            · split at h
              · rename_i e he
                injection h with h2
                exact absurd (h2 ▸ decode_unicode_error_kind _ _ e he) (by simp)
              · exact Except.noConfusion h
    · rintro ⟨rm, s, len, hf, c, hc, hcb⟩
      unfold parsestr
      rw [hf]
      have hany : (s.any fun c => decide (0x80 ≤ c.toNat)) = true :=
        List.any_eq_true.mpr ⟨c, hc, by simpa using hcb⟩
      simp [hany]
  · rintro rm s len hf hascii rfl
    unfold parsestr
    rw [hf]
    have hany : (s.any fun c => decide (0x80 ≤ c.toNat)) = false := by
      rw [List.any_eq_false]
      intro c hc
      simpa using Nat.not_le.mpr (hascii c hc)
    simp [hany]

/-- Witness for C8's amended theorem: an all-ASCII raw bytes literal
`rb'a'` decodes verbatim. -/
theorem parsestr_bytes_nonascii_iff_witness :
    parsestr ⟨ruleX, Expr.other 0 sp0, false⟩ ['r', 'b', '\'', 'a', '\''] =
      .ok (.str true true ['a']) :=
  (parsestr_bytes_nonascii_iff ⟨ruleX, Expr.other 0 sp0, false⟩
    ['r', 'b', '\'', 'a', '\'']).2 true ['a', '\''] 1 rfl (by decide) rfl

/-! ## C7: brace doubling in f-string literals -/

theorem decodeEscapesF_clean (tm : Bool) : ∀ (fuel : Nat) (l : List Char), '\\' ∉ l →
    decodeEscapesF tm fuel l = (l, false)
  | 0, _, _ => rfl
  | _ + 1, [], _ => rfl
  | fuel + 1, c :: rest, h => by
    have hc : ¬c = '\\' := fun hc => h (hc ▸ List.mem_cons_self c rest)
    simp only [decodeEscapesF, if_neg hc]
    rw [decodeEscapesF_clean tm fuel rest (fun hm => h (List.mem_cons_of_mem c hm))]

theorem decode_unicode_clean (w : Bool) (l : List Char) (h : '\\' ∉ l) :
    decode_unicode_with_escapes w l = .ok l := by
  unfold decode_unicode_with_escapes decodeEscapes
  rw [decodeEscapesF_clean true l.length l h]
  simp

theorem find_literal_loop_clean (w raw : Bool) (tail : List Char) :
    ∀ (x rAcc : List Char), (∀ c ∈ x, ¬c = '{' ∧ ¬c = '}' ∧ ¬c = '\\') →
    find_literal_loop w raw 0 false rAcc (x ++ '}' :: '}' :: tail) =
      .ok (rAcc.reverse ++ (x ++ ['}']), true, tail)
  | [], rAcc, _ => by
    rw [show ([] ++ '}' :: '}' :: tail : List Char) = '}' :: '}' :: tail from rfl,
      find_literal_loop.eq_def]
    simp
  | c :: x, rAcc, h => by
    obtain ⟨h1, h2, h3⟩ := h c (by simp)
    have step : find_literal_loop w raw 0 false rAcc ((c :: x) ++ '}' :: '}' :: tail) =
        find_literal_loop w raw 0 false (c :: rAcc) (x ++ '}' :: '}' :: tail) := by
      conv_lhs => rw [List.cons_append, find_literal_loop.eq_def]
      simp [h1, h2, h3]
    rw [step, find_literal_loop_clean w raw tail x (c :: rAcc)
      (fun c2 hc2 => h c2 (by simp [hc2]))]
    simp

theorem fstring_find_literal_open_braces (w raw : Bool) (rest0 : List Char) :
    fstring_find_literal w raw 0 ('{' :: '{' :: rest0) = .ok (some ['{'], true, rest0) := by
  unfold fstring_find_literal
  have hloop : find_literal_loop w raw 0 false [] ('{' :: '{' :: rest0) =
      .ok (['{'], true, rest0) := by
    rw [find_literal_loop.eq_def]
    simp
  rw [hloop]
  by_cases hraw : raw
  · simp [hraw]
  · simp [hraw, decode_unicode_clean w ['{'] (by decide)]

theorem fstring_find_literal_clean_close (w raw : Bool) (x : List Char)
    (hx : ∀ c ∈ x, ¬c = '{' ∧ ¬c = '}' ∧ ¬c = '\\') :
    fstring_find_literal w raw 0 (x ++ ['}', '}']) = .ok (some (x ++ ['}']), true, []) := by
  unfold fstring_find_literal
  rw [show (x ++ ['}', '}']) = x ++ '}' :: '}' :: [] from rfl,
    find_literal_loop_clean w raw [] x [] hx]
  have hnb : '\\' ∉ x ++ ['}'] := by
    simp only [List.mem_append]
    rintro (hm | hm)
    · exact (hx _ hm).2.2 rfl
    · simp at hm
  by_cases hraw : raw
  · simp [hraw]
  · simp [hraw, decode_unicode_clean w (x ++ ['}']) hnb]

theorem fstring_find_literal_empty (w raw : Bool) (lvl : Nat) :
    fstring_find_literal w raw lvl [] = .ok (none, false, []) := by
  unfold fstring_find_literal
  rw [find_literal_loop.eq_def]
  simp

theorem flae_open_braces (C : Collab) (fuel : Nat) (rest0 : List Char) (raw : Bool) (t : Span) :
    fstring_find_literal_and_expr C (fuel + 1) ('{' :: '{' :: rest0) raw 0 t =
      .ok (some ['{'], true, none, none, rest0) := by
  simp only [fstring_find_literal_and_expr]
  rw [fstring_find_literal_open_braces]
  simp

theorem flae_clean_close (C : Collab) (fuel : Nat) (x : List Char) (raw : Bool) (t : Span)
    (hx : ∀ c ∈ x, ¬c = '{' ∧ ¬c = '}' ∧ ¬c = '\\') :
    fstring_find_literal_and_expr C (fuel + 1) (x ++ ['}', '}']) raw 0 t =
      .ok (some (x ++ ['}']), true, none, none, []) := by
  simp only [fstring_find_literal_and_expr]
  rw [fstring_find_literal_clean_close C.warnFail raw x hx]
  simp

theorem flae_empty (C : Collab) (fuel : Nat) (raw : Bool) (lvl : Nat) (t : Span) :
    fstring_find_literal_and_expr C (fuel + 1) [] raw lvl t =
      .ok (none, false, none, none, []) := by
  simp only [fstring_find_literal_and_expr]
  rw [fstring_find_literal_empty]
  simp

theorem concat_loop_final (C : Collab) (st : FstringParser) (raw : Bool) (t : Span) (j : Nat) :
    concatFstringLoop C (j + 2) st [] raw 0 t = (st, [], none) := by
  simp only [concatFstringLoop]
  rw [flae_empty C j raw 0 t]
  simp

theorem concat_loop_cont (C : Collab) (fuel : Nat) (st : FstringParser)
    (rest rest2 lit : List Char) (raw : Bool) (lvl : Nat) (t : Span)
    (hl : fstring_find_literal_and_expr C fuel rest raw lvl t =
      .ok (some lit, true, none, none, rest2)) :
    concatFstringLoop C (fuel + 1) st rest raw lvl t =
      concatFstringLoop C fuel (FstringParser_ConcatAndDel st lit) rest2 raw lvl t := by
  simp only [concatFstringLoop]
  rw [hl]
  rfl

/-- C7: segmenting an f-string body of the form `"{{" ++ x ++ "}}"`
(with `x` free of braces and backslashes) at recursion depth 0
produces the single literal `"{" ++ x ++ "}"`: each doubled brace ends
the current literal run with the "continue" status and skips one of
the two braces; and at recursion depth greater than 0 doubled braces
are not collapsed — the literal scan stops in front of the first `{`
without consuming anything, leaving it to be read as an expression
opener. -/
theorem fstring_brace_doubling_roundtrip (C : Collab) (x : List Char) (raw : Bool) (t : Span)
    (k : Nat) (hx : ∀ c ∈ x, ¬c = '{' ∧ ¬c = '}' ∧ ¬c = '\\') :
    FstringParser_ConcatFstring C (k + 5) ⟨none, [], false⟩
        ('{' :: '{' :: (x ++ ['}', '}'])) raw 0 t =
      (⟨some ('{' :: (x ++ ['}'])), [], true⟩, [], none) ∧
    (∀ (lvl : Nat) (rest : List Char), lvl ≠ 0 →
      fstring_find_literal C.warnFail raw lvl ('{' :: rest) = .ok (none, false, '{' :: rest)) := by
  constructor
  · have e1 : FstringParser_ConcatFstring C (k + 5) ⟨none, [], false⟩
        ('{' :: '{' :: (x ++ ['}', '}'])) raw 0 t =
        concatFstringLoop C (k + 4) ⟨none, [], true⟩
          ('{' :: '{' :: (x ++ ['}', '}'])) raw 0 t := by
      simp only [FstringParser_ConcatFstring]
    have e2 : concatFstringLoop C (k + 4) ⟨none, [], true⟩
        ('{' :: '{' :: (x ++ ['}', '}'])) raw 0 t =
        concatFstringLoop C (k + 3) ⟨some ['{'], [], true⟩ (x ++ ['}', '}']) raw 0 t :=
      concat_loop_cont C (k + 3) ⟨none, [], true⟩ _ _ ['{'] raw 0 t
        (flae_open_braces C (k + 2) (x ++ ['}', '}']) raw t)
    have e3 : concatFstringLoop C (k + 3) ⟨some ['{'], [], true⟩ (x ++ ['}', '}']) raw 0 t =
        concatFstringLoop C (k + 2)
          (FstringParser_ConcatAndDel ⟨some ['{'], [], true⟩ (x ++ ['}'])) [] raw 0 t :=
      concat_loop_cont C (k + 2) ⟨some ['{'], [], true⟩ _ _ (x ++ ['}']) raw 0 t
        (flae_clean_close C (k + 1) x raw t hx)
    have e4 : FstringParser_ConcatAndDel ⟨some ['{'], [], true⟩ (x ++ ['}']) =
        ⟨some ('{' :: (x ++ ['}'])), [], true⟩ := by
      simp [FstringParser_ConcatAndDel]
    rw [e1, e2, e3, e4, concat_loop_final C _ raw t k]
  · intro lvl rest hlvl
    unfold fstring_find_literal
    have hloop : find_literal_loop C.warnFail raw lvl false [] ('{' :: rest) =
        .ok ([], false, '{' :: rest) := by
      rw [find_literal_loop.eq_def]
      simp [hlvl]
    rw [hloop]
    simp

/-- Witness for C7 at the body `{{a}}` with `x = "a"`. -/
theorem fstring_brace_doubling_roundtrip_witness :
    FstringParser_ConcatFstring ⟨ruleX, Expr.other 0 sp0, false⟩ 5 ⟨none, [], false⟩
        ('{' :: '{' :: (['a'] ++ ['}', '}'])) false 0 sp0 =
      (⟨some ('{' :: (['a'] ++ ['}'])), [], true⟩, [], none) :=
  (fstring_brace_doubling_roundtrip ⟨ruleX, Expr.other 0 sp0, false⟩ ['a'] false sp0 0
    (by decide)).1

/-! ## C2: string_token ignores the f-string segmentation error -/

theorem fstring_find_literal_single_rbrace :
    fstring_find_literal false false 0 ['}'] = .error .singleRbrace := by
  unfold fstring_find_literal
  rw [find_literal_loop.eq_def]
  simp

theorem flae_single_rbrace (fuel : Nat) :
    fstring_find_literal_and_expr ⟨ruleX, Expr.other 0 sp0, false⟩ (fuel + 1)
      ['}'] false 0 sp0 = .error .singleRbrace := by
  simp only [fstring_find_literal_and_expr]
  simp [fstring_find_literal_single_rbrace]

theorem concat_loop_single_rbrace (fuel : Nat) (st : FstringParser) :
    concatFstringLoop ⟨ruleX, Expr.other 0 sp0, false⟩ (fuel + 2) st ['}'] false 0 sp0 =
      (st, ['}'], some PErr.singleRbrace) := by
  simp only [concatFstringLoop]
  rw [flae_single_rbrace fuel]

/-- C2 (code bug): on the token `f'}'` the f-string segmenter fails
(`fstring_find_literal` raises the single-brace error, which
`FstringParser_ConcatFstring` propagates as its `-1` status), yet
`string_token` assigns that status to the unread local `result`, calls
`FstringParser_Finish` anyway and returns the `JoinedStr` node built
from the partially-segmented state instead of the claimed failure
result (`NULL`). -/
theorem string_token_ignores_fstring_error (fuel : Nat) :
    FstringParser_ConcatFstring ⟨ruleX, Expr.other 0 sp0, false⟩ (fuel + 3) ⟨none, [], false⟩
        ['}'] false 0 sp0 =
      (⟨none, [], true⟩, ['}'], some PErr.singleRbrace) ∧
    string_token ⟨ruleX, Expr.other 0 sp0, false⟩ (fuel + 3) ['f', '\'', '}', '\''] sp0 =
      some (Expr.joinedStr [] sp0) ∧
    some (Expr.joinedStr [] sp0) ≠ (none : Option Expr) := by
  have hcf : FstringParser_ConcatFstring ⟨ruleX, Expr.other 0 sp0, false⟩ (fuel + 3)
      ⟨none, [], false⟩ ['}'] false 0 sp0 =
      (⟨none, [], true⟩, ['}'], some PErr.singleRbrace) := by
    have e1 : FstringParser_ConcatFstring ⟨ruleX, Expr.other 0 sp0, false⟩ (fuel + 3)
        ⟨none, [], false⟩ ['}'] false 0 sp0 =
        concatFstringLoop ⟨ruleX, Expr.other 0 sp0, false⟩ (fuel + 2)
          ⟨none, [], true⟩ ['}'] false 0 sp0 := by
      simp only [FstringParser_ConcatFstring]
    rw [e1, concat_loop_single_rbrace fuel]
  refine ⟨hcf, ?_, by simp⟩
  have hps : parsestr ⟨ruleX, Expr.other 0 sp0, false⟩ ['f', '\'', '}', '\''] =
      .ok (.fstr false ['}']) := rfl
  simp only [string_token, hps]
  rw [hcf]
  rfl

end Pegen
